import Mathlib

/-!
# Verification of the `keybinder` safe-ownership layer (src/lib.rs)

Shallow embedding of the `KeyBinder<T>` wrapper around the native
`keybinder-3.0` library.  The wrapper's observable behaviour is modelled as a
state machine:

* `KBState` embeds the `KeyBinder` struct: `dataPtrs` is the
  `HashMap<String, *mut c_void>` (an association list with the insertion
  order made explicit), and `next` is a fresh-allocation counter standing for
  the addresses handed out by `Box::new`/`Box::leak` — each live allocation
  has a distinct address, which the counter models by never reusing a handle.
* Calls that cross the FFI boundary, allocations and frees are recorded as an
  `Event` trace, so ordering claims (what happens before what) and counting
  claims (how many frees) are statements about the trace.
* Rust panics (the `CString::new(..).unwrap()` calls, which fail on strings
  containing an interior NUL byte) are modelled by `Option`: `none` is a
  panic.
* The boolean result of the native `keybinder_bind` call is an oracle
  parameter `ok` of `bind`, since the native library is outside the crate.

Source functions embedded (src/lib.rs):
  `KeyBinder::new`         → `newKB`
  `KeyBinder::bind`        → `bind`
  `KeyBinder::unbind`      → `unbind`
  `KeyBinder::unbind_impl` → `unbindImpl`
  `impl Drop for KeyBinder`→ `dropKB`
  `static INIT: Once`      → the `initDone` flag threaded through `runNews`
-/

namespace Keybinder

/-- Observable events of one `KeyBinder` process: heap allocations and frees
of `Payload` boxes (identified by their model handle), the native-library
calls, and the `INIT`/cooked-accelerator calls made by `KeyBinder::new`. -/
inductive Event where
  | alloc (h : Nat)
  | free (h : Nat)
  | insertEntry (s : String)
  | nativeBind (s : String)
  | nativeUnbind (s : String)
  | nativeInit
  | setCooked (b : Bool)
deriving DecidableEq, Repr

/-- The state of one `KeyBinder<T>` value: the `data_ptrs` hash map (keys are
keystrings, values are the opaque handles of the leaked `Payload` boxes) and
the fresh-handle counter. -/
structure KBState where
  dataPtrs : List (String × Nat)
  next : Nat
deriving DecidableEq, Repr

/-- The freshly constructed registry: empty map (`HashMap::new()`). -/
def initState : KBState := ⟨[], 0⟩

/-- `CString::new(s)` fails (and the source's `.unwrap()` panics) exactly when
`s` contains an interior NUL byte. -/
def hasNul (s : String) : Bool := s.data.contains (Char.ofNat 0)

/-- Association-list lookup, embedding `HashMap::get` / `contains_key`. -/
def alLookup (s : String) : List (String × Nat) → Option Nat
  | [] => none
  | p :: rest => if p.1 = s then some p.2 else alLookup s rest

/-- Association-list insert, embedding `HashMap::insert`: replaces the value
if the key is present, otherwise appends the new entry. -/
def alInsert (s : String) (h : Nat) : List (String × Nat) → List (String × Nat)
  | [] => [(s, h)]
  | p :: rest => if p.1 = s then (s, h) :: rest else p :: alInsert s h rest

/-- Association-list removal, embedding `HashMap::remove`. -/
def alRemove (s : String) : List (String × Nat) → List (String × Nat)
  | [] => []
  | p :: rest => if p.1 = s then rest else p :: alRemove s rest

/-- Embeds `KeyBinder::unbind_impl(keystring, data_ptr)` (src/lib.rs:142-149).
Faithful to the source's statement order:
1. `CString::new(keystring).unwrap()` — panics on interior NUL;
2. `let _ = Box::from_raw(data_ptr)` — the box is dropped at once, freeing
   the payload storage (the `free` event);
3. `keybinder_unbind_all(c_keystring)` — the native call (the
   `nativeUnbind` event).
So the emitted trace is `[free h, nativeUnbind s]`, in that order. -/
def unbindImpl (s : String) (h : Nat) : Option (List Event) :=
  if hasNul s then none
  else some [Event.free h, Event.nativeUnbind s]

/-- Embeds `KeyBinder::unbind(keystring)` (src/lib.rs:126-138): if the
keystring is in `data_ptrs`, run `unbind_impl` on its stored pointer and then
remove the map entry; otherwise do nothing. -/
def unbind (st : KBState) (s : String) : Option (KBState × List Event) :=
  match alLookup s st.dataPtrs with
  | none => some (st, [])
  | some h =>
    match unbindImpl s h with
    | none => none
    | some tr => some (⟨alRemove s st.dataPtrs, st.next⟩, tr)

/-- Embeds `KeyBinder::bind(keystring, user_handler, user_data)`
(src/lib.rs:103-123), in source order:
1. `self.unbind(keystring)`;
2. `CString::new(keystring).unwrap()` — panics on interior NUL;
3. `Box::leak(Box::new(Payload { .. }))` — a fresh allocation (`alloc`);
4. `self.data_ptrs.insert(keystring, payload_ptr)` (`insertEntry`);
5. `keybinder_bind(..)` (`nativeBind`), whose boolean result `ok` is
   returned verbatim. -/
def bind (st : KBState) (s : String) (ok : Bool) :
    Option (KBState × Bool × List Event) :=
  match unbind st s with
  | none => none
  | some (st1, tr1) =>
    if hasNul s then none
    else
      some (⟨alInsert s st1.next st1.dataPtrs, st1.next + 1⟩, ok,
        tr1 ++ [Event.alloc st1.next, Event.insertEntry s, Event.nativeBind s])

/-- Per-entry teardown loop of `impl Drop for KeyBinder` (src/lib.rs:156-168):
`unbind_impl` on every remaining entry, in map-iteration order. -/
def dropEntries : List (String × Nat) → Option (List Event)
  | [] => some []
  | (s, h) :: rest =>
    match unbindImpl s h with
    | none => none
    | some tr =>
      match dropEntries rest with
      | none => none
      | some trRest => some (tr ++ trRest)

/-- Embeds `impl Drop for KeyBinder` (src/lib.rs:156-168). -/
def dropKB (st : KBState) : Option (List Event) := dropEntries st.dataPtrs

/-- One public call on a registry: `bind` (with the native library's boolean
answer as oracle) or `unbind`. -/
inductive Op where
  | bind (s : String) (ok : Bool)
  | unbind (s : String)
deriving DecidableEq, Repr

/-- One public call, as a state transition (discarding `bind`'s boolean). -/
def step (st : KBState) : Op → Option (KBState × List Event)
  | Op.bind s ok =>
    match bind st s ok with
    | none => none
    | some (st', _, tr) => some (st', tr)
  | Op.unbind s => unbind st s

/-- Run a sequence of public calls, accumulating the event trace. -/
def run (st : KBState) (tr : List Event) : List Op → Option (KBState × List Event)
  | [] => some (st, tr)
  | op :: ops =>
    match step st op with
    | none => none
    | some (st', trOp) => run st' (tr ++ trOp) ops

/-- Embeds `KeyBinder::new(use_cooked)` (src/lib.rs:84-99) together with the
process-wide `static INIT: Once` (src/lib.rs:22).  `supported` is the answer
of the native `keybinder_supported()` predicate (an oracle), `initDone` is
the state of `INIT` before the call.  Returns the constructed registry (or
`none` for `Err(())`), the updated `INIT` state, and the native calls made. -/
def newKB (supported initDone useCooked : Bool) :
    Option KBState × Bool × List Event :=
  if supported = false then (none, initDone, [])
  else
    (some initState, true,
      (if initDone then [] else [Event.nativeInit]) ++ [Event.setCooked useCooked])

/-- A sequence of `KeyBinder::new` calls in one process, threading the
`INIT` flag; each call is a pair (answer of `keybinder_supported()`,
`use_cooked` argument). -/
def runNews (initDone : Bool) : List (Bool × Bool) → Bool × List Event
  | [] => (initDone, [])
  | c :: rest =>
    let r := newKB c.1 initDone c.2
    let out := runNews r.2.1 rest
    (out.1, r.2.2 ++ out.2)

/-- Recognizes `free` events, for counting release operations. -/
def isFree : Event → Bool
  | Event.free _ => true
  | _ => false

/-- Recognizes `nativeUnbind` events. -/
def isNativeUnbind : Event → Bool
  | Event.nativeUnbind _ => true
  | _ => false

/-- Recognizes the `nativeInit` event. -/
def isInit : Event → Bool
  | Event.nativeInit => true
  | _ => false

/-- Recognizes `setCooked` events. -/
def isSetCooked : Event → Bool
  | Event.setCooked _ => true
  | _ => false

/-! ## Association-list lemmas -/

theorem alLookup_mem {s : String} {h : Nat} :
    ∀ {m : List (String × Nat)}, alLookup s m = some h → (s, h) ∈ m := by
  intro m
  induction m with
  | nil => intro hc; simp [alLookup] at hc
  | cons p rest ih =>
    obtain ⟨a, b⟩ := p
    intro hl
    simp only [alLookup] at hl
    by_cases hp : a = s
    · rw [if_pos hp] at hl
      injection hl with hb
      subst hp
      subst hb
      exact List.mem_cons_self _ _
    · rw [if_neg hp] at hl
      exact List.mem_cons_of_mem _ (ih hl)

theorem alLookup_eq_none_iff {s : String} {m : List (String × Nat)} :
    alLookup s m = none ↔ s ∉ m.map Prod.fst := by
  induction m with
  | nil => simp [alLookup]
  | cons p rest ih =>
    by_cases hp : p.1 = s
    · simp [alLookup, hp]
    · simp [alLookup, hp, ih, Ne.symm hp]

theorem alRemove_sublist (s : String) :
    ∀ m : List (String × Nat), (alRemove s m).Sublist m := by
  intro m
  induction m with
  | nil => simp [alRemove]
  | cons p rest ih =>
    by_cases hp : p.1 = s
    · rw [alRemove, if_pos hp]
      exact List.sublist_cons_self p rest
    · rw [alRemove, if_neg hp]
      exact List.Sublist.cons₂ p ih

theorem mem_of_mem_alRemove {q : String × Nat} {s : String}
    {m : List (String × Nat)} (h : q ∈ alRemove s m) : q ∈ m :=
  (alRemove_sublist s m).mem h

theorem alLookup_alRemove_self {s : String} {m : List (String × Nat)}
    (hnd : (m.map Prod.fst).Nodup) : alLookup s (alRemove s m) = none := by
  induction m with
  | nil => simp [alRemove, alLookup]
  | cons p rest ih =>
    simp only [List.map_cons, List.nodup_cons] at hnd
    by_cases hp : p.1 = s
    · rw [alRemove, if_pos hp, alLookup_eq_none_iff]
      rw [← hp]
      exact hnd.1
    · rw [alRemove, if_neg hp, alLookup, if_neg hp]
      exact ih hnd.2

theorem fst_ne_of_mem_alRemove {q : String × Nat} {s : String}
    {m : List (String × Nat)} (hnd : (m.map Prod.fst).Nodup)
    (h : q ∈ alRemove s m) : q.1 ≠ s := by
  induction m with
  | nil => simp [alRemove] at h
  | cons p rest ih =>
    simp only [List.map_cons, List.nodup_cons] at hnd
    by_cases hp : p.1 = s
    · rw [alRemove, if_pos hp] at h
      intro hq
      exact hnd.1 (by rw [hp, ← hq]; exact List.mem_map_of_mem Prod.fst h)
    · rw [alRemove, if_neg hp] at h
      rcases List.mem_cons.mp h with hq | hq
      · rw [hq]; exact hp
      · exact ih hnd.2 hq

theorem mem_alRemove_or {s : String} {hdl : Nat} {m : List (String × Nat)}
    (hl : alLookup s m = some hdl) :
    ∀ q ∈ m, q ∈ alRemove s m ∨ q = (s, hdl) := by
  induction m with
  | nil => simp
  | cons p rest ih =>
    intro q hq
    by_cases hp : p.1 = s
    · simp only [alLookup, hp, if_pos rfl, Option.some.injEq] at hl
      rw [alRemove, if_pos hp]
      rcases List.mem_cons.mp hq with hq | hq
      · right
        rw [hq]
        cases p
        simp_all
      · left; exact hq
    · simp only [alLookup, if_neg hp] at hl
      rw [alRemove, if_neg hp]
      rcases List.mem_cons.mp hq with hq | hq
      · left
        rw [hq]
        exact List.mem_cons_self _ _
      · rcases ih hl q hq with h | h
        · left; exact List.mem_cons_of_mem p h
        · right; exact h

theorem alInsert_of_lookup_none {s : String} (h : Nat)
    {m : List (String × Nat)} (hl : alLookup s m = none) :
    alInsert s h m = m ++ [(s, h)] := by
  induction m with
  | nil => simp [alInsert]
  | cons p rest ih =>
    by_cases hp : p.1 = s
    · simp [alLookup, hp] at hl
    · simp only [alLookup, if_neg hp] at hl
      rw [alInsert, if_neg hp, ih hl, List.cons_append]

theorem alLookup_alInsert_self (s : String) (h : Nat) :
    ∀ m : List (String × Nat), alLookup s (alInsert s h m) = some h := by
  intro m
  induction m with
  | nil => simp [alInsert, alLookup]
  | cons p rest ih =>
    by_cases hp : p.1 = s
    · rw [alInsert, if_pos hp, alLookup, if_pos rfl]
    · rw [alInsert, if_neg hp, alLookup, if_neg hp, ih]

theorem unbindImpl_of_nulFree {s : String} (h : Nat) (hns : hasNul s = false) :
    unbindImpl s h = some [Event.free h, Event.nativeUnbind s] := by
  simp [unbindImpl, hns]

theorem unbind_of_lookup_none {st : KBState} {s : String}
    (hl : alLookup s st.dataPtrs = none) : unbind st s = some (st, []) := by
  rw [unbind, hl]

theorem unbind_of_lookup_some {st : KBState} {s : String} {hdl : Nat}
    (hl : alLookup s st.dataPtrs = some hdl) (hns : hasNul s = false) :
    unbind st s = some (⟨alRemove s st.dataPtrs, st.next⟩,
      [Event.free hdl, Event.nativeUnbind s]) := by
  simp only [unbind, hl, unbindImpl_of_nulFree hdl hns]

/-! ## Trace-counting helpers -/

theorem count_alloc_unbindTrace (x h : Nat) (s : String) :
    ([Event.free h, Event.nativeUnbind s] : List Event).count (Event.alloc x) = 0 := by
  simp [List.count_cons]

theorem count_free_unbindTrace (x h : Nat) (s : String) :
    ([Event.free h, Event.nativeUnbind s] : List Event).count (Event.free x) =
      if h = x then 1 else 0 := by
  simp [List.count_cons]

theorem count_alloc_bindTrace (x n : Nat) (s : String) :
    ([Event.alloc n, Event.insertEntry s, Event.nativeBind s] : List Event).count
      (Event.alloc x) = if n = x then 1 else 0 := by
  simp [List.count_cons]

theorem count_free_bindTrace (x n : Nat) (s : String) :
    ([Event.alloc n, Event.insertEntry s, Event.nativeBind s] : List Event).count
      (Event.free x) = 0 := by
  simp [List.count_cons]

/-! ## The registry invariant

`Inv st tr` relates a reachable registry state to the event trace that
produced it: keys are NUL-free (they passed `CString::new`), keys and stored
pointers are pairwise distinct, every stored pointer is a live allocation
(allocated exactly once, never freed), every other handle is balanced
(freed as many times as allocated), no handle is allocated twice, and
handles at or above the counter are untouched. -/

structure Inv (st : KBState) (tr : List Event) : Prop where
  nulFree : ∀ p ∈ st.dataPtrs, hasNul p.1 = false
  keysND : (st.dataPtrs.map Prod.fst).Nodup
  valsND : (st.dataPtrs.map Prod.snd).Nodup
  bounded : ∀ p ∈ st.dataPtrs, p.2 < st.next
  liveAlloc : ∀ p ∈ st.dataPtrs, tr.count (Event.alloc p.2) = 1
  liveFree : ∀ p ∈ st.dataPtrs, tr.count (Event.free p.2) = 0
  balanced : ∀ h : Nat, (∀ p ∈ st.dataPtrs, p.2 ≠ h) →
    tr.count (Event.alloc h) = tr.count (Event.free h)
  allocOnce : ∀ h : Nat, tr.count (Event.alloc h) ≤ 1
  freshUntouched : ∀ h : Nat, st.next ≤ h → tr.count (Event.alloc h) = 0

theorem Inv.initial : Inv initState [] := by
  constructor <;> simp [initState]

theorem Inv.unbind_pres {st : KBState} {tr : List Event} {s : String}
    {st' : KBState} {trU : List Event} (inv : Inv st tr)
    (h : unbind st s = some (st', trU)) : Inv st' (tr ++ trU) := by
  cases hl : alLookup s st.dataPtrs with
  | none =>
    rw [unbind_of_lookup_none hl] at h
    injection h with h
    injection h with h1 h2
    subst h1
    subst h2
    simpa using inv
  | some hdl =>
    have hmem : (s, hdl) ∈ st.dataPtrs := alLookup_mem hl
    have hns : hasNul s = false := inv.nulFree _ hmem
    rw [unbind_of_lookup_some hl hns] at h
    injection h with h
    injection h with h1 h2
    subst h1
    subst h2
    have hsub : (alRemove s st.dataPtrs).Sublist st.dataPtrs := alRemove_sublist s _
    have hmm : ∀ q ∈ alRemove s st.dataPtrs, q ∈ st.dataPtrs := fun q hq => hsub.mem hq
    have hne : ∀ q ∈ alRemove s st.dataPtrs, q.2 ≠ hdl := by
      intro q hq
      have hq1 : q.1 ≠ s := fst_ne_of_mem_alRemove inv.keysND hq
      intro hq2
      have : q = (s, hdl) :=
        List.inj_on_of_nodup_map inv.valsND (hmm q hq) hmem (by simpa using hq2)
      exact hq1 (by rw [this])
    constructor
    · intro p hp; exact inv.nulFree p (hmm p hp)
    · exact (hsub.map Prod.fst).nodup inv.keysND
    · exact (hsub.map Prod.snd).nodup inv.valsND
    · intro p hp; exact inv.bounded p (hmm p hp)
    · intro p hp
      rw [List.count_append, count_alloc_unbindTrace]
      exact inv.liveAlloc p (hmm p hp)
    · intro p hp
      rw [List.count_append, count_free_unbindTrace,
        if_neg (fun hc => hne p hp hc.symm)]
      simp [inv.liveFree p (hmm p hp)]
    · intro x hx
      rw [List.count_append, List.count_append, count_alloc_unbindTrace,
        count_free_unbindTrace]
      by_cases hxh : x = hdl
      · subst hxh
        rw [if_pos rfl, inv.liveFree _ hmem, inv.liveAlloc _ hmem]
      · rw [if_neg (fun hc => hxh hc.symm)]
        have : ∀ p ∈ st.dataPtrs, p.2 ≠ x := by
          intro p hp
          rcases mem_alRemove_or hl p hp with hin | heq
          · exact hx p hin
          · rw [heq]; intro hc; exact hxh hc.symm
        rw [inv.balanced x this]
    · intro x
      rw [List.count_append, count_alloc_unbindTrace]
      simpa using inv.allocOnce x
    · intro x hx
      rw [List.count_append, count_alloc_unbindTrace]
      simpa using inv.freshUntouched x hx

theorem unbind_none_of_nul {st : KBState} {s : String} {hdl : Nat}
    (hl : alLookup s st.dataPtrs = some hdl) (hn : hasNul s = true) :
    unbind st s = none := by
  simp [unbind, hl, unbindImpl, hn]

theorem unbind_lookup_after {st : KBState} {s : String} {st1 : KBState}
    {tr1 : List Event} (hnd : (st.dataPtrs.map Prod.fst).Nodup)
    (hu : unbind st s = some (st1, tr1)) : alLookup s st1.dataPtrs = none := by
  cases hl : alLookup s st.dataPtrs with
  | none =>
    rw [unbind_of_lookup_none hl] at hu
    injection hu with hu
    injection hu with h1 h2
    rw [← h1]
    exact hl
  | some hdl =>
    cases hn : hasNul s with
    | true => rw [unbind_none_of_nul hl hn] at hu; cases hu
    | false =>
      rw [unbind_of_lookup_some hl hn] at hu
      injection hu with hu
      injection hu with h1 h2
      rw [← h1]
      exact alLookup_alRemove_self hnd

theorem bind_eq {st : KBState} {s : String} {st1 : KBState} {tr1 : List Event}
    (ok : Bool) (hu : unbind st s = some (st1, tr1)) (hns : hasNul s = false) :
    bind st s ok = some (⟨alInsert s st1.next st1.dataPtrs, st1.next + 1⟩, ok,
      tr1 ++ [Event.alloc st1.next, Event.insertEntry s, Event.nativeBind s]) := by
  simp [bind, hu, hns]

theorem Inv.bind_pres {st : KBState} {tr : List Event} {s : String} {ok : Bool}
    {st' : KBState} {ok' : Bool} {trB : List Event} (inv : Inv st tr)
    (h : bind st s ok = some (st', ok', trB)) : Inv st' (tr ++ trB) := by
  cases hu : unbind st s with
  | none =>
    rw [bind] at h
    rw [hu] at h
    cases h
  | some p =>
    obtain ⟨st1, tr1⟩ := p
    cases hns : hasNul s with
    | true =>
      simp [bind, hu, hns] at h
    | false =>
      rw [bind_eq ok hu hns] at h
      injection h with h
      injection h with h1 h
      injection h with h2 h3
      subst h1
      subst h3
      have inv1 : Inv st1 (tr ++ tr1) := inv.unbind_pres hu
      have hlook : alLookup s st1.dataPtrs = none := unbind_lookup_after inv.keysND hu
      have hkey : s ∉ st1.dataPtrs.map Prod.fst := alLookup_eq_none_iff.mp hlook
      have hins : alInsert s st1.next st1.dataPtrs =
          st1.dataPtrs ++ [(s, st1.next)] := alInsert_of_lookup_none _ hlook
      have hmem : ∀ p : String × Nat, p ∈ alInsert s st1.next st1.dataPtrs →
          p ∈ st1.dataPtrs ∨ p = (s, st1.next) := by
        intro p hp
        rw [hins] at hp
        rcases List.mem_append.mp hp with hp | hp
        · exact Or.inl hp
        · exact Or.inr (by simpa using hp)
      have hassoc : tr ++ (tr1 ++
          [Event.alloc st1.next, Event.insertEntry s, Event.nativeBind s]) =
          (tr ++ tr1) ++
          [Event.alloc st1.next, Event.insertEntry s, Event.nativeBind s] :=
        (List.append_assoc tr tr1 _).symm
      rw [hassoc]
      constructor
      · intro p hp
        rcases hmem p hp with hp | hp
        · exact inv1.nulFree p hp
        · rw [hp]; exact hns
      · rw [hins, List.map_append, List.nodup_append]
        refine ⟨inv1.keysND, by simp, ?_⟩
        intro a ha hb
        simp only [List.map_cons, List.map_nil, List.mem_singleton] at hb
        subst hb
        exact hkey ha
      · rw [hins, List.map_append, List.nodup_append]
        refine ⟨inv1.valsND, by simp, ?_⟩
        intro a ha hb
        simp only [List.map_cons, List.map_nil, List.mem_singleton] at hb
        subst hb
        rcases List.mem_map.mp ha with ⟨q, hq, hq2⟩
        exact absurd (hq2 ▸ inv1.bounded q hq) (lt_irrefl _)
      · intro p hp
        rcases hmem p hp with hp | hp
        · exact Nat.lt_succ_of_lt (inv1.bounded p hp)
        · rw [hp]; exact Nat.lt_succ_self _
      · intro p hp
        rw [List.count_append, count_alloc_bindTrace]
        rcases hmem p hp with hp | hp
        · rw [inv1.liveAlloc p hp,
            if_neg (fun hc => absurd (hc ▸ inv1.bounded p hp) (lt_irrefl _))]
        · rw [hp]
          simp [inv1.freshUntouched st1.next le_rfl]
      · intro p hp
        rw [List.count_append, count_free_bindTrace]
        rcases hmem p hp with hp | hp
        · rw [inv1.liveFree p hp]
        · rw [hp]
          have hb : ∀ q ∈ st1.dataPtrs, q.2 ≠ st1.next := by
            intro q hq
            exact Nat.ne_of_lt (inv1.bounded q hq)
          have := (inv1.balanced st1.next hb).symm
          rw [this, inv1.freshUntouched st1.next le_rfl]
      · intro x hx
        have hxn : st1.next ≠ x := by
          intro hc
          exact hx (s, st1.next) (by rw [hins]; simp) (by simpa using hc)
        have hx1 : ∀ p ∈ st1.dataPtrs, p.2 ≠ x := by
          intro p hp
          exact hx p (by rw [hins]; exact List.mem_append_left _ hp)
        have hbal := inv1.balanced x hx1
        simp only [List.count_append] at hbal
        simp only [List.count_append, count_alloc_bindTrace, count_free_bindTrace,
          if_neg hxn]
        omega
      · intro x
        rw [List.count_append, count_alloc_bindTrace]
        by_cases hxn : st1.next = x
        · rw [if_pos hxn, ← hxn, inv1.freshUntouched st1.next le_rfl]
        · rw [if_neg hxn]
          simpa using inv1.allocOnce x
      · intro x hx
        rw [List.count_append, count_alloc_bindTrace,
          if_neg (fun hc => absurd (hc ▸ hx) (by simp)),
          inv1.freshUntouched x (Nat.le_of_succ_le hx)]

theorem Inv.step_pres {st : KBState} {tr : List Event} {op : Op}
    {st' : KBState} {trOp : List Event} (inv : Inv st tr)
    (h : step st op = some (st', trOp)) : Inv st' (tr ++ trOp) := by
  cases op with
  | bind s ok =>
    rw [step] at h
    cases hb : bind st s ok with
    | none => rw [hb] at h; cases h
    | some q =>
      obtain ⟨st2, ok2, tr2⟩ := q
      rw [hb] at h
      injection h with h
      injection h with h1 h2
      subst h1
      subst h2
      exact inv.bind_pres hb
  | unbind s => exact inv.unbind_pres h

theorem Inv.run_pres : ∀ (ops : List Op) {st : KBState} {tr : List Event}
    {st' : KBState} {tr' : List Event}, Inv st tr →
    run st tr ops = some (st', tr') → Inv st' tr' := by
  intro ops
  induction ops with
  | nil =>
    intro st tr st' tr' inv h
    injection h with h
    injection h with h1 h2
    subst h1
    subst h2
    exact inv
  | cons op ops ih =>
    intro st tr st' tr' inv h
    rw [run] at h
    cases hs : step st op with
    | none => rw [hs] at h; cases h
    | some q =>
      obtain ⟨st2, tr2⟩ := q
      rw [hs] at h
      exact ih (inv.step_pres hs) h

/-! ## Teardown trace -/

theorem dropEntries_eq {m : List (String × Nat)}
    (hn : ∀ p ∈ m, hasNul p.1 = false) :
    dropEntries m =
      some (m.flatMap fun p => [Event.free p.2, Event.nativeUnbind p.1]) := by
  induction m with
  | nil => rfl
  | cons p rest ih =>
    obtain ⟨s, h⟩ := p
    have h1 : hasNul s = false := hn (s, h) (List.mem_cons_self _ _)
    have h2 : ∀ q ∈ rest, hasNul q.1 = false :=
      fun q hq => hn q (List.mem_cons_of_mem _ hq)
    simp only [dropEntries, unbindImpl_of_nulFree h h1, ih h2, List.flatMap_cons]

theorem count_alloc_dropTrace (x : Nat) : ∀ m : List (String × Nat),
    (m.flatMap fun p => [Event.free p.2, Event.nativeUnbind p.1]).count
      (Event.alloc x) = 0 := by
  intro m
  induction m with
  | nil => rfl
  | cons p rest ih =>
    rw [List.flatMap_cons, List.count_append, ih, count_alloc_unbindTrace]

theorem count_free_dropTrace (x : Nat) : ∀ m : List (String × Nat),
    (m.flatMap fun p => [Event.free p.2, Event.nativeUnbind p.1]).count
      (Event.free x) = (m.map Prod.snd).count x := by
  intro m
  induction m with
  | nil => rfl
  | cons p rest ih =>
    rw [List.flatMap_cons, List.count_append, ih, count_free_unbindTrace,
      List.map_cons, List.count_cons]
    by_cases hp : p.2 = x
    all_goals simp [hp]
    all_goals omega

theorem countP_isFree_dropTrace : ∀ m : List (String × Nat),
    (m.flatMap fun p => [Event.free p.2, Event.nativeUnbind p.1]).countP isFree =
      m.length := by
  intro m
  induction m with
  | nil => rfl
  | cons p rest ih =>
    rw [List.flatMap_cons, List.countP_append, ih, List.length_cons]
    simp [List.countP_cons, isFree]
    omega

theorem countP_isNativeUnbind_dropTrace : ∀ m : List (String × Nat),
    (m.flatMap fun p => [Event.free p.2, Event.nativeUnbind p.1]).countP
      isNativeUnbind = m.length := by
  intro m
  induction m with
  | nil => rfl
  | cons p rest ih =>
    rw [List.flatMap_cons, List.countP_append, ih, List.length_cons]
    simp [List.countP_cons, isNativeUnbind]
    omega

theorem mem_dropTrace {m : List (String × Nat)} {p : String × Nat}
    (hp : p ∈ m) :
    Event.free p.2 ∈ (m.flatMap fun q => [Event.free q.2, Event.nativeUnbind q.1]) ∧
    Event.nativeUnbind p.1 ∈
      (m.flatMap fun q => [Event.free q.2, Event.nativeUnbind q.1]) := by
  constructor
  · exact List.mem_flatMap.mpr ⟨p, hp, by simp⟩
  · exact List.mem_flatMap.mpr ⟨p, hp, by simp⟩

theorem unbind_total (st : KBState) {s : String} (hns : hasNul s = false) :
    ∃ st1 tr1, unbind st s = some (st1, tr1) ∧
      (tr1 = [] ∨ ∃ hdl, tr1 = [Event.free hdl, Event.nativeUnbind s]) := by
  cases hl : alLookup s st.dataPtrs with
  | none => exact ⟨st, [], unbind_of_lookup_none hl, Or.inl rfl⟩
  | some hdl => exact ⟨_, _, unbind_of_lookup_some hl hns, Or.inr ⟨hdl, rfl⟩⟩

/-! ## The claims -/

/-- C1: the claim says the native `keybinder_unbind_all` call happens before
the `Registration` storage is released, never after.  The source does the
opposite: in `unbind_impl` (src/lib.rs:142-149) the payload box is freed by
`Box::from_raw` on line 146 and `keybinder_unbind_all` runs only afterwards
on line 148.  Evaluating the embedded `unbind` on a registry holding one
binding shows the `free` event at index 0, strictly before the
`nativeUnbind` event at index 1. -/
theorem unbind_frees_storage_before_native_drop :
    unbind ⟨[("a", 0)], 1⟩ "a" =
      some (⟨[], 1⟩, [Event.free 0, Event.nativeUnbind "a"]) ∧
    ([Event.free 0, Event.nativeUnbind "a"].indexOf (Event.free 0) <
      [Event.free 0, Event.nativeUnbind "a"].indexOf (Event.nativeUnbind "a")) := by
  decide

/-- C2: for every finite sequence of `bind`/`unbind` calls followed by
teardown (`Drop`), each handle is allocated at most once and is freed
exactly as many times as it was allocated — no double free and no leak by
teardown time. -/
theorem allocations_released_exactly_once (ops : List Op) (st : KBState)
    (tr trD : List Event) (h : Nat)
    (hrun : run initState [] ops = some (st, tr))
    (hdrop : dropKB st = some trD) :
    (tr ++ trD).count (Event.alloc h) = (tr ++ trD).count (Event.free h) ∧
    (tr ++ trD).count (Event.alloc h) ≤ 1 := by
  have inv : Inv st tr := Inv.run_pres ops Inv.initial hrun
  have htrD : trD =
      st.dataPtrs.flatMap fun p => [Event.free p.2, Event.nativeUnbind p.1] := by
    rw [dropKB, dropEntries_eq inv.nulFree] at hdrop
    injection hdrop with hdrop
    exact hdrop.symm
  subst htrD
  rw [List.count_append, List.count_append, count_alloc_dropTrace,
    count_free_dropTrace]
  by_cases hmem : h ∈ st.dataPtrs.map Prod.snd
  · obtain ⟨p, hp, hp2⟩ := List.mem_map.mp hmem
    subst hp2
    have h1 := inv.liveAlloc p hp
    have h2 := inv.liveFree p hp
    have h3 : (st.dataPtrs.map Prod.snd).count p.2 = 1 :=
      List.count_eq_one_of_mem inv.valsND hmem
    omega
  · have hne : ∀ p ∈ st.dataPtrs, p.2 ≠ h :=
      fun p hp hc => hmem (List.mem_map.mpr ⟨p, hp, hc⟩)
    have h1 := inv.balanced h hne
    have h2 := inv.allocOnce h
    have h3 : (st.dataPtrs.map Prod.snd).count h = 0 :=
      List.count_eq_zero.mpr hmem
    omega

/-- Witness for C2: one `bind` followed by teardown; the single allocation
is freed exactly once. -/
theorem allocations_released_exactly_once_witness :
    (([Event.alloc 0, Event.insertEntry "a", Event.nativeBind "a"] ++
      [Event.free 0, Event.nativeUnbind "a"]).count (Event.alloc 0) =
      ([Event.alloc 0, Event.insertEntry "a", Event.nativeBind "a"] ++
      [Event.free 0, Event.nativeUnbind "a"]).count (Event.free 0)) ∧
    (([Event.alloc 0, Event.insertEntry "a", Event.nativeBind "a"] ++
      [Event.free 0, Event.nativeUnbind "a"]).count (Event.alloc 0) ≤ 1) :=
  allocations_released_exactly_once [Op.bind "a" true] ⟨[("a", 0)], 1⟩
    [Event.alloc 0, Event.insertEntry "a", Event.nativeBind "a"]
    [Event.free 0, Event.nativeUnbind "a"] 0 (by decide) (by decide)

/-- C3: `bind` on an already-active keystring first runs the full `unbind`
release sequence — the old entry's storage is freed and the keystring is
absent from the map in the intermediate state — and only then allocates and
inserts the new registration; in the emitted trace the `free` of the old
handle strictly precedes the `alloc` of the new one. -/
theorem rebind_retires_prior_before_new_alloc (st : KBState) (s : String)
    (ok : Bool) (hdl : Nat)
    (hnd : (st.dataPtrs.map Prod.fst).Nodup)
    (hns : hasNul s = false)
    (hl : alLookup s st.dataPtrs = some hdl) :
    unbind st s = some (⟨alRemove s st.dataPtrs, st.next⟩,
      [Event.free hdl, Event.nativeUnbind s]) ∧
    alLookup s (alRemove s st.dataPtrs) = none ∧
    bind st s ok = some
      (⟨alInsert s st.next (alRemove s st.dataPtrs), st.next + 1⟩, ok,
       [Event.free hdl, Event.nativeUnbind s,
        Event.alloc st.next, Event.insertEntry s, Event.nativeBind s]) := by
  have h1 := unbind_of_lookup_some hl hns
  refine ⟨h1, alLookup_alRemove_self hnd, ?_⟩
  have h2 := bind_eq ok h1 hns
  simpa using h2

/-- Witness for C3: re-binding `"a"` on a registry where it is active. -/
theorem rebind_retires_prior_before_new_alloc_witness :
    unbind ⟨[("a", 0)], 1⟩ "a" = some (⟨[], 1⟩,
      [Event.free 0, Event.nativeUnbind "a"]) ∧
    alLookup "a" (alRemove "a" [("a", 0)]) = none ∧
    bind ⟨[("a", 0)], 1⟩ "a" true = some (⟨[("a", 1)], 2⟩, true,
      [Event.free 0, Event.nativeUnbind "a",
       Event.alloc 1, Event.insertEntry "a", Event.nativeBind "a"]) := by
  have h := rebind_retires_prior_before_new_alloc ⟨[("a", 0)], 1⟩ "a" true 0
    (by decide) (by decide) (by decide)
  exact ⟨h.1, h.2.1, by simpa using h.2.2⟩

/-- C4: `bind` returns the native library's boolean verbatim (the oracle
`ok` comes back unchanged), and the local bookkeeping — the fresh
allocation and the `active` entry — happens no matter what `ok` is; the
allocation left behind by a failed native call is freed by a later
`unbind`. -/
theorem bind_returns_native_result_verbatim (st : KBState) (s : String)
    (ok : Bool) (hns : hasNul s = false) :
    ∃ st' h' tr, bind st s ok = some (st', ok, tr) ∧
      alLookup s st'.dataPtrs = some h' ∧
      Event.alloc h' ∈ tr ∧
      ∃ st'', unbind st' s = some (st'', [Event.free h', Event.nativeUnbind s]) := by
  obtain ⟨st1, tr1, hu, _⟩ := unbind_total st hns
  refine ⟨_, st1.next, _, bind_eq ok hu hns, ?_, ?_, ?_⟩
  · exact alLookup_alInsert_self s st1.next st1.dataPtrs
  · exact List.mem_append_right _ (List.mem_cons_self _ _)
  · exact ⟨_, unbind_of_lookup_some (alLookup_alInsert_self s st1.next st1.dataPtrs) hns⟩

/-- Witness for C4: a `bind` whose native call fails (`ok = false`) still
records the entry, and the entry is cleaned by a later `unbind`. -/
theorem bind_returns_native_result_verbatim_witness :
    hasNul "a" = false ∧
    ∃ st' h' tr, bind initState "a" false = some (st', false, tr) ∧
      alLookup "a" st'.dataPtrs = some h' ∧
      Event.alloc h' ∈ tr ∧
      ∃ st'', unbind st' "a" =
        some (st'', [Event.free h', Event.nativeUnbind "a"]) :=
  ⟨by decide, bind_returns_native_result_verbatim initState "a" false (by decide)⟩

/-- C5: teardown of a registry holding N entries performs exactly N release
(`free`) operations and exactly N native `keybinder_unbind_all` calls, one
per entry: every stored handle is freed and every keystring is dropped at
the native level. -/
theorem teardown_releases_all_entries (st : KBState) (trD : List Event)
    (hn : ∀ p ∈ st.dataPtrs, hasNul p.1 = false)
    (hdrop : dropKB st = some trD) :
    trD.countP isFree = st.dataPtrs.length ∧
    trD.countP isNativeUnbind = st.dataPtrs.length ∧
    ∀ p ∈ st.dataPtrs, Event.free p.2 ∈ trD ∧ Event.nativeUnbind p.1 ∈ trD := by
  have htrD : trD =
      st.dataPtrs.flatMap fun p => [Event.free p.2, Event.nativeUnbind p.1] := by
    rw [dropKB, dropEntries_eq hn] at hdrop
    injection hdrop with hdrop
    exact hdrop.symm
  subst htrD
  exact ⟨countP_isFree_dropTrace _, countP_isNativeUnbind_dropTrace _,
    fun p hp => mem_dropTrace hp⟩

/-- Witness for C5: teardown of a registry with two live entries performs
two frees and two native unbinds. -/
theorem teardown_releases_all_entries_witness :
    ([Event.free 0, Event.nativeUnbind "a", Event.free 1,
      Event.nativeUnbind "b"].countP isFree = 2) ∧
    ([Event.free 0, Event.nativeUnbind "a", Event.free 1,
      Event.nativeUnbind "b"].countP isNativeUnbind = 2) ∧
    ∀ p ∈ [("a", 0), ("b", 1)],
      Event.free p.2 ∈ [Event.free 0, Event.nativeUnbind "a", Event.free 1,
        Event.nativeUnbind "b"] ∧
      Event.nativeUnbind p.1 ∈ [Event.free 0, Event.nativeUnbind "a",
        Event.free 1, Event.nativeUnbind "b"] :=
  teardown_releases_all_entries ⟨[("a", 0), ("b", 1)], 2⟩
    [Event.free 0, Event.nativeUnbind "a", Event.free 1, Event.nativeUnbind "b"]
    (by decide) (by decide)

/-- C6: `unbind` on a keystring with no entry in `data_ptrs` is a no-op: it
returns normally (no panic), emits no event at all — in particular no native
call and no free — and leaves the map unchanged. -/
theorem unbind_unregistered_is_noop (st : KBState) (s : String)
    (h : alLookup s st.dataPtrs = none) :
    unbind st s = some (st, []) :=
  unbind_of_lookup_none h

/-- Witness for C6: `unbind` of `"x"` on an empty registry. -/
theorem unbind_unregistered_is_noop_witness :
    alLookup "x" initState.dataPtrs = none ∧
    unbind initState "x" = some (initState, []) :=
  ⟨by decide, unbind_unregistered_is_noop initState "x" (by decide)⟩

/-- C7: `KeyBinder::new` returns `Err(())` exactly when the native
`keybinder_supported()` predicate answers false; when it answers true the
result is a registry with an empty map; and in the unsupported case no
native call at all (neither `keybinder_init` nor
`keybinder_set_use_cooked_accelerators`) is made. -/
theorem construct_unsupported_iff (supported initDone useCooked : Bool) :
    ((newKB supported initDone useCooked).1 = none ↔ supported = false) ∧
    (newKB supported initDone useCooked).1 =
      (if supported then some initState else none) ∧
    (newKB supported initDone useCooked).2.2 =
      (if supported then
        (if initDone then [] else [Event.nativeInit]) ++
          [Event.setCooked useCooked]
      else []) := by
  cases supported <;> cases initDone <;> simp [newKB]

theorem runNews_true_no_init : ∀ calls : List (Bool × Bool),
    (runNews true calls).1 = true ∧ (runNews true calls).2.countP isInit = 0 := by
  intro calls
  induction calls with
  | nil => exact ⟨rfl, rfl⟩
  | cons c rest ih =>
    cases hc : c.1 <;>
      simp [runNews, newKB, hc, List.countP_append, List.countP_cons, isInit,
        ih.1, ih.2]

theorem runNews_cooked_count : ∀ (d : Bool) (calls : List (Bool × Bool)),
    (runNews d calls).2.countP isSetCooked = calls.countP Prod.fst := by
  intro d calls
  induction calls generalizing d with
  | nil => rfl
  | cons c rest ih =>
    cases hd : d <;> cases hc : c.1 <;>
      simp [runNews, newKB, hc, List.countP_append, List.countP_cons,
        isSetCooked, isInit, ih]

/-- C8: across any sequence of `KeyBinder::new` calls in one process
(starting with the `INIT` flag unset), the native `keybinder_init` runs
exactly once if at least one construction is successful and never
otherwise; it is the very first native call of the first successful
construction; once the flag is set no later construction runs it again; and
every successful construction reapplies the cooked-accelerator flag (one
`setCooked` per success). -/
theorem construct_initializes_once (calls : List (Bool × Bool)) :
    (runNews false calls).2.countP isInit =
      (if calls.any Prod.fst then 1 else 0) ∧
    (runNews true calls).2.countP isInit = 0 ∧
    (runNews false calls).2.head? =
      (if calls.any Prod.fst then some Event.nativeInit else none) ∧
    (runNews false calls).2.countP isSetCooked = calls.countP Prod.fst := by
  refine ⟨?_, (runNews_true_no_init calls).2, ?_, runNews_cooked_count false calls⟩
  · induction calls with
    | nil => rfl
    | cons c rest ih =>
      cases hc : c.1
      · simpa [runNews, newKB, hc] using ih
      · simp [runNews, newKB, hc, List.countP_append, List.countP_cons, isInit,
          (runNews_true_no_init rest).2]
  · induction calls with
    | nil => rfl
    | cons c rest ih =>
      cases hc : c.1
      · simpa [runNews, newKB, hc] using ih
      · simp [runNews, newKB, hc]

/-- C9 counterexample: the claim says `bind` claims the slot for every
identifier string, including ones with interior NUL bytes, without
panicking.  In the source, `CString::new(keystring).unwrap()`
(src/lib.rs:108) panics on an interior NUL before the map insert, so `bind`
on such a string diverges (models as `none`) and no slot is claimed. -/
theorem bind_panics_on_interior_nul :
    bind initState (String.mk [Char.ofNat 97, Char.ofNat 0, Char.ofNat 98])
      true = none := by
  decide

/-- C9 amended: for every identifier string free of interior NUL bytes,
`bind` claims the slot locally — the map entry is inserted — before the
native registration attempt, without panicking: in the emitted trace the
`insertEntry` event precedes the `nativeBind` event, which does not occur
earlier. -/
theorem bind_claims_slot_before_native_call (st : KBState) (s : String)
    (ok : Bool) (hns : hasNul s = false) :
    ∃ st' h' tr1, bind st s ok = some (st', ok,
        tr1 ++ [Event.alloc h', Event.insertEntry s, Event.nativeBind s]) ∧
      alLookup s st'.dataPtrs = some h' ∧
      Event.nativeBind s ∉ tr1 := by
  obtain ⟨st1, tr1, hu, hshape⟩ := unbind_total st hns
  refine ⟨_, st1.next, tr1, bind_eq ok hu hns,
    alLookup_alInsert_self s st1.next st1.dataPtrs, ?_⟩
  rcases hshape with h | ⟨hdl, h⟩ <;> subst h <;> simp

/-- Witness for the amended C9: binding `"a"` on the empty registry. -/
theorem bind_claims_slot_before_native_call_witness :
    hasNul "a" = false ∧
    ∃ st' h' tr1, bind initState "a" true = some (st', true,
        tr1 ++ [Event.alloc h', Event.insertEntry "a", Event.nativeBind "a"]) ∧
      alLookup "a" st'.dataPtrs = some h' ∧
      Event.nativeBind "a" ∉ tr1 :=
  ⟨by decide, bind_claims_slot_before_native_call initState "a" true (by decide)⟩

/-- C10: in every registry state reachable by a sequence of `bind`/`unbind`
calls, the map is injective — distinct keystrings never share a stored
handle, so releasing one entry's storage cannot free storage still
referenced by another entry. -/
theorem active_map_handles_injective (ops : List Op) (st : KBState)
    (tr : List Event) (hrun : run initState [] ops = some (st, tr)) :
    ∀ p ∈ st.dataPtrs, ∀ q ∈ st.dataPtrs, p.1 ≠ q.1 → p.2 ≠ q.2 := by
  have inv : Inv st tr := Inv.run_pres ops Inv.initial hrun
  intro p hp q hq hne hc
  exact hne (congrArg Prod.fst
    (List.inj_on_of_nodup_map inv.valsND hp hq (by simpa using hc)))

/-- Witness for C10: after binding `"a"` and `"b"`, their handles differ. -/
theorem active_map_handles_injective_witness :
    run initState [] [Op.bind "a" true, Op.bind "b" true] =
      some (⟨[("a", 0), ("b", 1)], 2⟩,
        [Event.alloc 0, Event.insertEntry "a", Event.nativeBind "a",
         Event.alloc 1, Event.insertEntry "b", Event.nativeBind "b"]) ∧
    (("a", 0) : String × Nat).2 ≠ (("b", 1) : String × Nat).2 :=
  ⟨by decide,
   active_map_handles_injective [Op.bind "a" true, Op.bind "b" true]
     ⟨[("a", 0), ("b", 1)], 2⟩
     [Event.alloc 0, Event.insertEntry "a", Event.nativeBind "a",
      Event.alloc 1, Event.insertEntry "b", Event.nativeBind "b"] (by decide)
     ("a", 0) (by decide) ("b", 1) (by decide) (by decide)⟩

end Keybinder
